import Mathlib

/-!
Formal model of the `cardinal` query-sampling core (`cardinal/base.py`):
the abstract sampler contract (`BaseQuerySampler`), the score-based
sampler (`ScoredQuerySampler.select_samples` with its three strategies
`top`, `linear_choice`, `squared_choice`, the not-enough-samples guard
and the `sample_scores_` diagnostic cache), and the chaining sampler
(`ChainQuerySampler.select_samples`).

Feature vectors and scores are modelled over `ℚ` (exact rationals in
place of floats, so normalization `p / p.sum` is exact).  numpy's random
generator is an external collaborator; it is modelled as an interface
carrying its documented guarantee for draws without replacement.
-/

namespace Cardinal

/-- A sample: one fixed-dimension feature vector (a row of `X`). -/
abbrev Row := List ℚ

/-- The pool `X`: an ordered sequence of feature rows. -/
abbrev Pool := List Row

/-- Model of `np.random.RandomState`, the sampler's seeded random source, an
external collaborator.  `choice n size p` models
`random_state.choice(np.arange(n), size=size, replace=False, p=p)`.
`choice_spec` is numpy's documented behaviour for a draw without
replacement from a valid probability vector: it returns exactly `size`
pairwise-distinct indices, all smaller than `n`. -/
structure RandomState where
  choice : ℕ → ℕ → List ℚ → List ℕ
  choice_spec : ∀ n size p, size ≤ n → p.length = n → (∀ x ∈ p, 0 < x) →
    p.sum = 1 →
    (choice n size p).length = size ∧ (choice n size p).Nodup ∧
      ∀ i ∈ choice n size p, i < n

/-- A concrete `RandomState` used to evaluate the model on concrete
inputs: it deterministically draws the first `size` indices. -/
def firstDraw : RandomState where
  choice := fun _ size _ => List.range size
  choice_spec := fun n size p hsize _ _ _ => by
    refine ⟨List.length_range size, List.nodup_range size, ?_⟩
    intro i hi
    exact lt_of_lt_of_le (List.mem_range.mp hi) hsize

/-- The state of a `ScoredQuerySampler` instance: constructor arguments
`batch_size`, `strategy`, `random_state`, the abstract `score_samples`
hook (implemented by concrete informativeness measures), and the
mutable diagnostic cache `sample_scores_` (absent before the first
non-degenerate call). -/
structure ScoredQuerySampler where
  batch_size : ℕ
  strategy : String
  random_state : RandomState
  score_samples : Pool → List ℚ
  sample_scores_ : Option (List ℚ) := none

/-- The warning message issued by `BaseQuerySampler._not_enough_samples`:
`'Requested {} samples but data only has {}.'.format(batch_size, n)`. -/
def notEnoughMsg (batch n : ℕ) : String :=
  "Requested " ++ toString batch ++ " samples but data only has "
    ++ toString n ++ "."

/-- Outcome of one `select_samples` call: the returned value or the
raised exception's message, the post-call instance state, and the
warnings emitted during the call. -/
structure SelectOutcome where
  result : Except String (List ℕ)
  sampler : ScoredQuerySampler
  warnings : List String

/-- The comparison key of `np.argsort(s)` made deterministic: index `i`
comes before index `j` when its score is smaller, ties resolved by the
stable order (lower original index first). -/
def argsortRel (s : List ℚ) (i j : ℕ) : Prop :=
  s.getD i 0 < s.getD j 0 ∨ (s.getD i 0 = s.getD j 0 ∧ i ≤ j)

instance (s : List ℚ) : DecidableRel (argsortRel s) := fun i j => by
  unfold argsortRel; infer_instance

instance (s : List ℚ) : IsTotal ℕ (argsortRel s) where
  total i j := by
    unfold argsortRel
    rcases lt_trichotomy (s.getD i 0) (s.getD j 0) with h | h | h
    · exact Or.inl (Or.inl h)
    · rcases Nat.le_total i j with hij | hij
      · exact Or.inl (Or.inr ⟨h, hij⟩)
      · exact Or.inr (Or.inr ⟨h.symm, hij⟩)
    · exact Or.inr (Or.inl h)

instance (s : List ℚ) : IsTrans ℕ (argsortRel s) where
  trans i j k := by
    unfold argsortRel
    rintro (hij | ⟨hij, hij'⟩) (hjk | ⟨hjk, hjk'⟩)
    · exact Or.inl (hij.trans hjk)
    · exact Or.inl (hjk ▸ hij)
    · exact Or.inl (hij ▸ hjk)
    · exact Or.inr ⟨hij.trans hjk, hij'.trans hjk'⟩

/-- Embedding of `np.argsort(s)`: the indices `0..s.length-1` sorted by ascending
score, ties broken stably (lower index first among equal scores). -/
def argsort (s : List ℚ) : List ℕ :=
  List.insertionSort (argsortRel s) (List.range s.length)

/-- Python slicing `a[-batch:]` on a list (numpy 1-d array) `a`:
for `batch = 0` this is `a[0:]`, the whole list; otherwise the last
`min batch a.length` elements. -/
def lastSlice (batch : ℕ) (a : List ℕ) : List ℕ :=
  if batch = 0 then a else a.drop (a.length - batch)

/-- Embedding of `scores / np.sum(scores)`: elementwise division by the sum. -/
def normalize (scores : List ℚ) : List ℚ :=
  scores.map (fun x => x / scores.sum)

/-- Embedding of `ScoredQuerySampler.select_samples`, line by line:
degenerate-pool guard first (warn and return `np.arange(n)`), else
compute `score_samples`, store the cache, and dispatch on the strategy
string; an unrecognized strategy raises
`ValueError('Unknown sample selection strategy {}'.format(strategy))`. -/
def select_samples (s : ScoredQuerySampler) (X : Pool) : SelectOutcome :=
  if X.length < s.batch_size then
    { result := Except.ok (List.range X.length)
      sampler := s
      warnings := [notEnoughMsg s.batch_size X.length] }
  else
    let sample_scores := s.score_samples X
    let s' := { s with sample_scores_ := some sample_scores }
    if s.strategy = "top" then
      { result := Except.ok (lastSlice s.batch_size (argsort sample_scores))
        sampler := s'
        warnings := [] }
    else if s.strategy = "linear_choice" then
      { result := Except.ok (s.random_state.choice X.length s.batch_size
          (normalize sample_scores))
        sampler := s'
        warnings := [] }
    else if s.strategy = "squared_choice" then
      let squared := sample_scores.map (fun x => x ^ 2)
      { result := Except.ok (s.random_state.choice X.length s.batch_size
          (normalize squared))
        sampler := s'
        warnings := [] }
    else
      { result := Except.error
          ("Unknown sample selection strategy " ++ s.strategy)
        sampler := s'
        warnings := [] }

/-- numpy fancy indexing `X[selected]`: the rows of `X` at the listed
positions (in-bounds on every use the claims quantify over). -/
def selectRows (X : Pool) (selected : List ℕ) : Pool :=
  selected.map (fun i => X.getD i [])

/-- numpy fancy indexing `selected[new_selected]` on an index array:
translate sub-indices back through the previous index array. -/
def composeIdx (selected new_selected : List ℕ) : List ℕ :=
  new_selected.map (fun j => selected.getD j 0)

/-- A downstream member of a `ChainQuerySampler`.  The chain calls
`sampler.fit(D)` and then `sampler.predict(P)`; `run D P` is the value
that `predict` call returns after that `fit` call (the `predict`
method of chain members is not defined in `base.py`; per the spec it
is the member's scoring/selection).  `batch` is the member's
`batch_size`. -/
structure ChainStage where
  batch : ℕ
  run : Pool → Pool → List ℕ

/-- Embedding of `ChainQuerySampler.select_samples`: obtain `selected` from the
first sampler on the full pool, then for each remaining sampler in
order run `sampler.fit(X)` (the full original pool, no labels),
`new_selected = sampler.predict(X[selected])`, and
`selected = selected[new_selected]`. -/
def chain_select_samples (first : Pool → List ℕ) (rest : List ChainStage)
    (X : Pool) : List ℕ :=
  rest.foldl (fun selected sampler =>
    composeIdx selected (sampler.run X (selectRows X selected))) (first X)

/-- What §4.3 of the spec prescribes for the chain: each subsequent
sampler is fit using the already-selected subset's feature rows
(`X[selected]`) as its pool context, not the full pool, before its
selection runs on that same subset. -/
def chain_select_samples_fitOnSubset (first : Pool → List ℕ)
    (rest : List ChainStage) (X : Pool) : List ℕ :=
  rest.foldl (fun selected sampler =>
    composeIdx selected
      (sampler.run (selectRows X selected) (selectRows X selected))) (first X)

/-- The chain behaviour with the fit context spelled out as the source
has it: each subsequent sampler is fit on the full original pool (no
label argument), its selection is invoked on the already-selected
subset's rows, and the returned sub-indices are translated back into
original-pool indices by composing with the previous index array. -/
def chain_select_samples_fitOnFullPool (first : Pool → List ℕ)
    (rest : List ChainStage) (X : Pool) : List ℕ :=
  rest.foldl (fun selected sampler =>
    composeIdx selected (sampler.run X (selectRows X selected))) (first X)

/-- Modelled from the spec: chain members are invoked through `predict`,
which `base.py` does not define; the spec says a downstream member's
selection is its scoring/selection, so a `ScoredQuerySampler` member's
`predict` on a pool is its `select_samples` selection on that pool
(its `fit` data is ignored, as `fit` is a no-op for score hooks that
depend only on the pool). -/
def scoredStage (s : ScoredQuerySampler) : ChainStage where
  batch := s.batch_size
  run := fun _fitData pool =>
    match (select_samples s pool).result with
    | Except.ok idx => idx
    | Except.error _ => []

section Lemmas

/-- The list `argsort s` is a permutation of `0, …, s.length - 1`. -/
theorem argsort_perm (s : List ℚ) :
    List.Perm (argsort s) (List.range s.length) :=
  List.perm_insertionSort _ _

theorem argsort_length (s : List ℚ) : (argsort s).length = s.length := by
  have := (argsort_perm s).length_eq
  simpa using this

theorem argsort_nodup (s : List ℚ) : (argsort s).Nodup :=
  ((argsort_perm s).nodup_iff).mpr (List.nodup_range _)

theorem argsort_mem {s : List ℚ} {i : ℕ} (h : i ∈ argsort s) :
    i < s.length := by
  have := (argsort_perm s).mem_iff.mp h
  simpa using this

theorem mem_argsort {s : List ℚ} {i : ℕ} (h : i < s.length) :
    i ∈ argsort s :=
  (argsort_perm s).mem_iff.mpr (List.mem_range.mpr h)

/-- The list `argsort s` is sorted by ascending score with stable tie-breaking. -/
theorem argsort_sorted (s : List ℚ) :
    List.Sorted (argsortRel s) (argsort s) :=
  List.sorted_insertionSort _ _

theorem lastSlice_pos {b : ℕ} (a : List ℕ) (hb : 0 < b) :
    lastSlice b a = a.drop (a.length - b) := by
  unfold lastSlice
  simp [Nat.pos_iff_ne_zero.mp hb]

theorem lastSlice_length {b : ℕ} {a : List ℕ} (hb : 0 < b)
    (hba : b ≤ a.length) : (lastSlice b a).length = b := by
  rw [lastSlice_pos a hb]
  simp [Nat.sub_sub_self hba]

theorem lastSlice_sublist {b : ℕ} (a : List ℕ) :
    List.Sublist (lastSlice b a) a := by
  unfold lastSlice
  split
  · exact List.Sublist.refl a
  · exact List.drop_sublist _ a

theorem lastSlice_nodup {b : ℕ} {a : List ℕ} (h : a.Nodup) :
    (lastSlice b a).Nodup :=
  h.sublist (lastSlice_sublist a)

theorem lastSlice_mem {b : ℕ} {a : List ℕ} {i : ℕ}
    (h : i ∈ lastSlice b a) : i ∈ a :=
  (lastSlice_sublist a).mem h

theorem sum_map_div (l : List ℚ) (c : ℚ) :
    (l.map (fun x => x / c)).sum = l.sum / c := by
  induction l with
  | nil => simp
  | cons a t ih => simp [ih, add_div]

theorem normalize_length (scores : List ℚ) :
    (normalize scores).length = scores.length := by
  simp [normalize]

theorem normalize_pos {scores : List ℚ} (hpos : ∀ x ∈ scores, 0 < x)
    (hne : scores ≠ []) : ∀ x ∈ normalize scores, 0 < x := by
  intro x hx
  rcases List.mem_map.mp hx with ⟨y, hy, rfl⟩
  exact div_pos (hpos y hy) (List.sum_pos scores hpos hne)

theorem normalize_sum {scores : List ℚ} (hpos : ∀ x ∈ scores, 0 < x)
    (hne : scores ≠ []) : (normalize scores).sum = 1 := by
  unfold normalize
  rw [sum_map_div]
  exact div_self (ne_of_gt (List.sum_pos scores hpos hne))

/-- Degenerate-pool branch of `select_samples`, as one equation. -/
theorem select_samples_degenerate (s : ScoredQuerySampler) (X : Pool)
    (h : X.length < s.batch_size) :
    select_samples s X =
      { result := Except.ok (List.range X.length)
        sampler := s
        warnings := [notEnoughMsg s.batch_size X.length] } := by
  simp [select_samples, h]

/-- The `top` branch of `select_samples`, as one equation. -/
theorem select_samples_top_eq (s : ScoredQuerySampler) (X : Pool)
    (h : ¬ X.length < s.batch_size) (hs : s.strategy = "top") :
    select_samples s X =
      { result := Except.ok
          (lastSlice s.batch_size (argsort (s.score_samples X)))
        sampler := { s with sample_scores_ := some (s.score_samples X) }
        warnings := [] } := by
  simp [select_samples, h, hs]

/-- The `linear_choice` branch of `select_samples`, as one equation. -/
theorem select_samples_linear_eq (s : ScoredQuerySampler) (X : Pool)
    (h : ¬ X.length < s.batch_size) (hs : s.strategy = "linear_choice") :
    select_samples s X =
      { result := Except.ok (s.random_state.choice X.length s.batch_size
          (normalize (s.score_samples X)))
        sampler := { s with sample_scores_ := some (s.score_samples X) }
        warnings := [] } := by
  have h1 : ¬ s.strategy = "top" := by rw [hs]; decide
  simp [select_samples, h, h1, hs]

/-- The `squared_choice` branch of `select_samples`, as one equation. -/
theorem select_samples_squared_eq (s : ScoredQuerySampler) (X : Pool)
    (h : ¬ X.length < s.batch_size) (hs : s.strategy = "squared_choice") :
    select_samples s X =
      { result := Except.ok (s.random_state.choice X.length s.batch_size
          (normalize ((s.score_samples X).map (fun x => x ^ 2))))
        sampler := { s with sample_scores_ := some (s.score_samples X) }
        warnings := [] } := by
  have h1 : ¬ s.strategy = "top" := by rw [hs]; decide
  have h2 : ¬ s.strategy = "linear_choice" := by rw [hs]; decide
  simp [select_samples, h, h1, h2, hs]

/-- Unknown-strategy branch of `select_samples`, as one equation. -/
theorem select_samples_unknown_eq (s : ScoredQuerySampler) (X : Pool)
    (h : ¬ X.length < s.batch_size) (h1 : s.strategy ≠ "top")
    (h2 : s.strategy ≠ "linear_choice") (h3 : s.strategy ≠ "squared_choice") :
    select_samples s X =
      { result := Except.error
          ("Unknown sample selection strategy " ++ s.strategy)
        sampler := { s with sample_scores_ := some (s.score_samples X) }
        warnings := [] } := by
  simp [select_samples, h, h1, h2, h3]

/-- The `top` selection `argsort(scores)[-batch:]` consists of exactly
`batch` pairwise-distinct valid indices when `0 < batch ≤ |scores|`. -/
theorem topSelection_props {scores : List ℚ} {b : ℕ} (hb : 0 < b)
    (hlen : b ≤ scores.length) :
    (lastSlice b (argsort scores)).length = b ∧
      (lastSlice b (argsort scores)).Nodup ∧
      ∀ i ∈ lastSlice b (argsort scores), i < scores.length := by
  refine ⟨?_, lastSlice_nodup (argsort_nodup scores), ?_⟩
  · rw [lastSlice_length hb]
    rw [argsort_length]
    exact hlen
  · intro i hi
    exact argsort_mem (lastSlice_mem hi)

/-- Dominance of the `top` selection: every unselected pool index
compares at-or-below every selected index under the stable sort key. -/
theorem topSelection_dominates {scores : List ℚ} {b : ℕ} (hb : 0 < b) :
    ∀ j < scores.length, j ∉ lastSlice b (argsort scores) →
      ∀ i ∈ lastSlice b (argsort scores), argsortRel scores j i := by
  intro j hj hjnot i hi
  set a := argsort scores with ha
  set k := a.length - b with hk
  have hsplit : a.take k ++ a.drop k = a := List.take_append_drop k a
  have hpair : List.Pairwise (argsortRel scores) (a.take k ++ a.drop k) := by
    rw [hsplit]
    exact argsort_sorted scores
  have hslice : lastSlice b a = a.drop k := lastSlice_pos a hb
  have hja : j ∈ a := mem_argsort hj
  have hjtake : j ∈ a.take k := by
    rcases (List.mem_append.mp (hsplit ▸ hja)) with h | h
    · exact h
    · exact absurd (hslice ▸ h) hjnot
  exact (List.pairwise_append.mp hpair).2.2 j hjtake i (hslice ▸ hi)

/-- The `top` selection is itself sorted ascending under the stable key. -/
theorem topSelection_sorted (scores : List ℚ) (b : ℕ) :
    List.Pairwise (argsortRel scores) (lastSlice b (argsort scores)) :=
  List.Pairwise.sublist (lastSlice_sublist (argsort scores))
    (argsort_sorted scores)

/-- Weighted draw on normalized positive scores: exactly `b` distinct
valid indices come back. -/
theorem choice_on_normalized (rs : RandomState) {scores : List ℚ} {n b : ℕ}
    (hb : b ≤ n) (hlen : scores.length = n) (hpos : ∀ x ∈ scores, 0 < x)
    (hne : scores ≠ []) :
    (rs.choice n b (normalize scores)).length = b ∧
      (rs.choice n b (normalize scores)).Nodup ∧
      ∀ i ∈ rs.choice n b (normalize scores), i < n :=
  rs.choice_spec n b (normalize scores) hb
    (by rw [normalize_length]; exact hlen)
    (normalize_pos hpos hne) (normalize_sum hpos hne)

end Lemmas

/-- C1: for every pool `X` with `poolSize ≥ batchSize` (the batch size
positive, per the data model) and a recognized strategy — with every
score strictly positive when the strategy is `linear_choice` or
`squared_choice`, and the scoring hook returning one score per row —
`select_samples` returns exactly `batchSize` pairwise-distinct indices,
each a valid index into `X`. -/
theorem select_samples_returns_batch (s : ScoredQuerySampler) (X : Pool)
    (hb : 0 < s.batch_size) (hn : s.batch_size ≤ X.length)
    (hlen : (s.score_samples X).length = X.length)
    (hstrat : s.strategy = "top" ∨ s.strategy = "linear_choice" ∨
      s.strategy = "squared_choice")
    (hpos : s.strategy = "linear_choice" ∨ s.strategy = "squared_choice" →
      ∀ x ∈ s.score_samples X, 0 < x) :
    ∃ idx, (select_samples s X).result = Except.ok idx ∧
      idx.length = s.batch_size ∧ idx.Nodup ∧ ∀ i ∈ idx, i < X.length := by
  have hguard : ¬ X.length < s.batch_size := not_lt.mpr hn
  have hne : s.score_samples X ≠ [] := by
    intro hnil
    rw [hnil] at hlen
    simp only [List.length_nil] at hlen
    omega
  rcases hstrat with hs | hs | hs
  · refine ⟨_, by rw [select_samples_top_eq s X hguard hs], ?_⟩
    have hp := @topSelection_props (s.score_samples X) s.batch_size hb
      (by rw [hlen]; exact hn)
    rw [hlen] at hp
    exact hp
  · refine ⟨_, by rw [select_samples_linear_eq s X hguard hs], ?_⟩
    exact choice_on_normalized s.random_state hn hlen
      (hpos (Or.inl hs)) hne
  · refine ⟨_, by rw [select_samples_squared_eq s X hguard hs], ?_⟩
    refine choice_on_normalized s.random_state hn ?_ ?_ ?_
    · rw [List.length_map]; exact hlen
    · intro x hx
      rcases List.mem_map.mp hx with ⟨y, hy, rfl⟩
      exact pow_pos (hpos (Or.inr hs) y hy) 2
    · simp only [ne_eq, List.map_eq_nil_iff]
      exact hne

/-- Witness for C1 at a concrete `linear_choice` sampler on a two-row
pool with batch size 1. -/
theorem select_samples_returns_batch_witness :
    (0 : ℕ) < 1 ∧
      ∃ idx, (select_samples
        { batch_size := 1, strategy := "linear_choice",
          random_state := firstDraw,
          score_samples := fun rows => rows.map (fun r => r.getD 0 0) }
        [[1], [2]]).result = Except.ok idx ∧
        idx.length = 1 ∧ idx.Nodup ∧ ∀ i ∈ idx, i < ([[1], [2]] : Pool).length :=
  ⟨Nat.one_pos,
    select_samples_returns_batch _ [[1], [2]] Nat.one_pos (by decide)
      (by rfl) (Or.inr (Or.inl rfl))
      (fun _ x hx => by
        have h2 : x = 1 ∨ x = 2 := by simpa using hx
        rcases h2 with rfl | rfl <;> norm_num)⟩

/-- C2: when the pool is strictly smaller than the batch size,
`select_samples` short-circuits with the full index list
`0..poolSize-1` in ascending order, the call succeeds, and the single
warning raised is the `NotEnoughSamples` message naming the requested
count and the available count. -/
theorem select_samples_degenerate_guard (s : ScoredQuerySampler) (X : Pool)
    (h : X.length < s.batch_size) :
    (select_samples s X).result = Except.ok (List.range X.length) ∧
      (select_samples s X).warnings =
        [notEnoughMsg s.batch_size X.length] ∧
      ∃ pre mid post, notEnoughMsg s.batch_size X.length =
        pre ++ toString s.batch_size ++ mid ++ toString X.length ++ post := by
  rw [select_samples_degenerate s X h]
  exact ⟨rfl, rfl, "Requested ", " samples but data only has ", ".", rfl⟩

/-- Witness for C2: batch size 2 on a one-row pool. -/
theorem select_samples_degenerate_guard_witness :
    ([[5]] : Pool).length < 2 ∧
      ((select_samples
        { batch_size := 2, strategy := "top", random_state := firstDraw,
          score_samples := fun _ => [] } [[5]]).result =
            Except.ok (List.range 1) ∧
        (select_samples
          { batch_size := 2, strategy := "top", random_state := firstDraw,
            score_samples := fun _ => [] } [[5]]).warnings =
              [notEnoughMsg 2 1] ∧
        ∃ pre mid post, notEnoughMsg 2 1 =
          pre ++ toString 2 ++ mid ++ toString 1 ++ post) :=
  ⟨by decide,
    select_samples_degenerate_guard
      { batch_size := 2, strategy := "top", random_state := firstDraw,
        score_samples := fun _ => [] } [[5]] (by decide)⟩

/-- C6: with a pool at least as large as the batch and a strategy
string other than the three recognized ones, `select_samples` fails
with the `ValueError` message naming the offending strategy, and no
index list is returned. -/
theorem select_samples_unknown_strategy_error (s : ScoredQuerySampler)
    (X : Pool) (hn : s.batch_size ≤ X.length) (h1 : s.strategy ≠ "top")
    (h2 : s.strategy ≠ "linear_choice")
    (h3 : s.strategy ≠ "squared_choice") :
    (select_samples s X).result =
        Except.error ("Unknown sample selection strategy " ++ s.strategy) ∧
      ∀ idx, (select_samples s X).result ≠ Except.ok idx := by
  rw [select_samples_unknown_eq s X (not_lt.mpr hn) h1 h2 h3]
  exact ⟨rfl, fun idx h => by cases h⟩

/-- Witness for C6 at the strategy string `"best"`. -/
theorem select_samples_unknown_strategy_error_witness :
    (1 : ℕ) ≤ 1 ∧
      ((select_samples
        { batch_size := 1, strategy := "best", random_state := firstDraw,
          score_samples := fun _ => [3] } [[7]]).result =
          Except.error ("Unknown sample selection strategy " ++ "best") ∧
        ∀ idx, (select_samples
          { batch_size := 1, strategy := "best", random_state := firstDraw,
            score_samples := fun _ => [3] } [[7]]).result ≠
              Except.ok idx) :=
  ⟨le_refl 1,
    select_samples_unknown_strategy_error
      { batch_size := 1, strategy := "best", random_state := firstDraw,
        score_samples := fun _ => [3] } [[7]]
      (by decide) (by decide) (by decide) (by decide)⟩

/-- C7: with the same generator state, `squared_choice` selects exactly
what `linear_choice` selects on the element-wise squared score vector:
squaring before normalization is the only difference between the two
weighted strategies. -/
theorem squared_eq_linear_on_squared_scores (s : ScoredQuerySampler)
    (X : Pool) (hn : s.batch_size ≤ X.length)
    (_hsum : 0 < ((s.score_samples X).map (fun x => x ^ 2)).sum) :
    (select_samples { s with strategy := "squared_choice" } X).result =
      (select_samples
        { s with
          strategy := "linear_choice"
          score_samples := fun Y => (s.score_samples Y).map
            (fun x => x ^ 2) } X).result := by
  rw [select_samples_squared_eq { s with strategy := "squared_choice" } X
    (not_lt.mpr hn) rfl]
  rw [select_samples_linear_eq
    { s with
      strategy := "linear_choice"
      score_samples := fun Y => (s.score_samples Y).map (fun x => x ^ 2) }
    X (not_lt.mpr hn) rfl]

/-- Witness for C7 at a one-row pool with score 2. -/
theorem squared_eq_linear_on_squared_scores_witness :
    (1 : ℕ) ≤ ([[9]] : Pool).length ∧
      (0 : ℚ) < (([(2 : ℚ)]).map (fun x => x ^ 2)).sum ∧
      (select_samples
        { batch_size := 1, strategy := "squared_choice",
          random_state := firstDraw, score_samples := fun _ => [2] }
        [[9]]).result =
      (select_samples
        { batch_size := 1, strategy := "linear_choice",
          random_state := firstDraw,
          score_samples := fun Y =>
            ((fun (_ : Pool) => ([2] : List ℚ)) Y).map (fun x => x ^ 2) }
        [[9]]).result :=
  ⟨by decide, by norm_num,
    squared_eq_linear_on_squared_scores
      { batch_size := 1, strategy := "squared_choice",
        random_state := firstDraw, score_samples := fun _ => [2] }
      [[9]] (by decide) (by norm_num)⟩

/-- C8: in a non-degenerate `squared_choice` call, the diagnostic cache
`sample_scores_` receives the raw scores returned by `score_samples`,
while the draw itself uses the squared-then-normalized weights. -/
theorem squared_choice_caches_raw_scores (s : ScoredQuerySampler)
    (X : Pool) (hn : s.batch_size ≤ X.length)
    (hs : s.strategy = "squared_choice") :
    (select_samples s X).sampler.sample_scores_ =
        some (s.score_samples X) ∧
      (select_samples s X).result =
        Except.ok (s.random_state.choice X.length s.batch_size
          (normalize ((s.score_samples X).map (fun x => x ^ 2)))) := by
  rw [select_samples_squared_eq s X (not_lt.mpr hn) hs]
  exact ⟨rfl, rfl⟩

/-- Witness for C8 with scores `[2, 3]`, whose squares differ from the
raw values. -/
theorem squared_choice_caches_raw_scores_witness :
    (2 : ℕ) ≤ ([[0], [0]] : Pool).length ∧
      ((select_samples
        { batch_size := 2, strategy := "squared_choice",
          random_state := firstDraw, score_samples := fun _ => [2, 3] }
        [[0], [0]]).sampler.sample_scores_ = some [2, 3] ∧
      (select_samples
        { batch_size := 2, strategy := "squared_choice",
          random_state := firstDraw, score_samples := fun _ => [2, 3] }
        [[0], [0]]).result =
        Except.ok (firstDraw.choice 2 2
          (normalize (([2, 3] : List ℚ).map (fun x => x ^ 2))))) :=
  ⟨by decide,
    squared_choice_caches_raw_scores
      { batch_size := 2, strategy := "squared_choice",
        random_state := firstDraw, score_samples := fun _ => [2, 3] }
      [[0], [0]] (by decide) rfl⟩

/-- C9: an unknown-strategy failure is not atomic: the call raises the
error, yet the instance's `sample_scores_` has already been overwritten
with the freshly computed scores. -/
theorem unknown_strategy_overwrites_cache (s : ScoredQuerySampler)
    (X : Pool) (hn : s.batch_size ≤ X.length) (h1 : s.strategy ≠ "top")
    (h2 : s.strategy ≠ "linear_choice")
    (h3 : s.strategy ≠ "squared_choice") :
    (∃ msg, (select_samples s X).result = Except.error msg) ∧
      (select_samples s X).sampler.sample_scores_ =
        some (s.score_samples X) := by
  rw [select_samples_unknown_eq s X (not_lt.mpr hn) h1 h2 h3]
  exact ⟨⟨_, rfl⟩, rfl⟩

/-- Witness for C9: the stale cache `some [99]` is replaced by the
fresh scores `[1]` even though the call errors. -/
theorem unknown_strategy_overwrites_cache_witness :
    (1 : ℕ) ≤ ([[4]] : Pool).length ∧
      ((∃ msg, (select_samples
        { batch_size := 1, strategy := "bogus", random_state := firstDraw,
          score_samples := fun _ => [1],
          sample_scores_ := some [99] } [[4]]).result =
            Except.error msg) ∧
      (select_samples
        { batch_size := 1, strategy := "bogus", random_state := firstDraw,
          score_samples := fun _ => [1],
          sample_scores_ := some [99] } [[4]]).sampler.sample_scores_ =
            some [1]) :=
  ⟨by decide,
    unknown_strategy_overwrites_cache
      { batch_size := 1, strategy := "bogus", random_state := firstDraw,
        score_samples := fun _ => [1], sample_scores_ := some [99] }
      [[4]] (by decide) (by decide) (by decide) (by decide)⟩

/-- C10: a degenerate-pool call returns before scoring: the instance is
returned unchanged (so `sample_scores_` keeps its prior value), and the
call's result and warnings do not depend on the `score_samples` hook at
all. -/
theorem degenerate_leaves_cache_untouched (s : ScoredQuerySampler)
    (X : Pool) (h : X.length < s.batch_size) :
    (select_samples s X).sampler = s ∧
      ∀ f, (select_samples { s with score_samples := f } X).result =
          (select_samples s X).result ∧
        (select_samples { s with score_samples := f } X).warnings =
          (select_samples s X).warnings := by
  rw [select_samples_degenerate s X h]
  refine ⟨rfl, fun f => ?_⟩
  rw [select_samples_degenerate { s with score_samples := f } X h]
  exact ⟨rfl, rfl⟩

/-- Witness for C10: a stale cache `some [7]` survives a degenerate
call untouched, for any replacement hook. -/
theorem degenerate_leaves_cache_untouched_witness :
    ([[1]] : Pool).length < 3 ∧
      ((select_samples
        { batch_size := 3, strategy := "top", random_state := firstDraw,
          score_samples := fun _ => [8], sample_scores_ := some [7] }
        [[1]]).sampler =
          { batch_size := 3, strategy := "top", random_state := firstDraw,
            score_samples := fun _ => [8], sample_scores_ := some [7] } ∧
      ∀ f, (select_samples
          { batch_size := 3, strategy := "top", random_state := firstDraw,
            score_samples := f, sample_scores_ := some [7] } [[1]]).result =
          (select_samples
            { batch_size := 3, strategy := "top", random_state := firstDraw,
              score_samples := fun _ => [8], sample_scores_ := some [7] }
            [[1]]).result ∧
        (select_samples
          { batch_size := 3, strategy := "top", random_state := firstDraw,
            score_samples := f, sample_scores_ := some [7] } [[1]]).warnings =
          (select_samples
            { batch_size := 3, strategy := "top", random_state := firstDraw,
              score_samples := fun _ => [8], sample_scores_ := some [7] }
            [[1]]).warnings) :=
  ⟨by decide,
    degenerate_leaves_cache_untouched
      { batch_size := 3, strategy := "top", random_state := firstDraw,
        score_samples := fun _ => [8], sample_scores_ := some [7] }
      [[1]] (by decide)⟩

/-- C4: under the `top` strategy on a sufficient pool, `select_samples`
returns the indices of the `batchSize` highest-scoring elements: the
returned index list is sorted ascending under the stable key
`argsortRel` (score first, lower original index first among ties), and
every unselected pool index sits at-or-below every selected one under
that key. -/
theorem select_samples_top_highest (s : ScoredQuerySampler) (X : Pool)
    (hb : 0 < s.batch_size) (hn : s.batch_size ≤ X.length)
    (hs : s.strategy = "top")
    (hlen : (s.score_samples X).length = X.length) :
    ∃ idx, (select_samples s X).result = Except.ok idx ∧
      idx.length = s.batch_size ∧ idx.Nodup ∧ (∀ i ∈ idx, i < X.length) ∧
      List.Pairwise (argsortRel (s.score_samples X)) idx ∧
      ∀ j < X.length, j ∉ idx →
        ∀ i ∈ idx, argsortRel (s.score_samples X) j i := by
  have hguard : ¬ X.length < s.batch_size := not_lt.mpr hn
  refine ⟨_, by rw [select_samples_top_eq s X hguard hs], ?_, ?_, ?_, ?_, ?_⟩
  · rw [lastSlice_length hb]
    rw [argsort_length]
    rw [hlen]
    exact hn
  · exact lastSlice_nodup (argsort_nodup _)
  · intro i hi
    have := argsort_mem (lastSlice_mem hi)
    rw [hlen] at this
    exact this
  · exact topSelection_sorted _ _
  · intro j hj hjn i hi
    refine topSelection_dominates hb j ?_ hjn i hi
    rw [hlen]
    exact hj

/-- Witness for C4: scores `[1, 1, 1, 1, 100]` with batch size 2 select
exactly the index set `[3, 4]` (index 4 holds the top score, the tie at
score 1 resolves to the highest stable position, index 3). -/
theorem select_samples_top_highest_witness :
    (select_samples
      { batch_size := 2, strategy := "top", random_state := firstDraw,
        score_samples := fun _ => [1, 1, 1, 1, 100] }
      [[0], [0], [0], [0], [0]]).result = Except.ok [3, 4] ∧
    ∃ idx, (select_samples
      { batch_size := 2, strategy := "top", random_state := firstDraw,
        score_samples := fun _ => [1, 1, 1, 1, 100] }
      [[0], [0], [0], [0], [0]]).result = Except.ok idx ∧
      idx.length = 2 ∧ idx.Nodup ∧
      (∀ i ∈ idx, i < ([[0], [0], [0], [0], [0]] : Pool).length) ∧
      List.Pairwise (argsortRel ([1, 1, 1, 1, 100] : List ℚ)) idx ∧
      ∀ j < ([[0], [0], [0], [0], [0]] : Pool).length, j ∉ idx →
        ∀ i ∈ idx, argsortRel ([1, 1, 1, 1, 100] : List ℚ) j i :=
  ⟨by rfl,
    select_samples_top_highest
      { batch_size := 2, strategy := "top", random_state := firstDraw,
        score_samples := fun _ => [1, 1, 1, 1, 100] }
      [[0], [0], [0], [0], [0]] (by decide) (by decide) rfl (by rfl)⟩

/-- The concrete chain configuration refuting C3's fit-context clause:
a downstream member whose behaviour depends on the length of the data
it was fit on. -/
def c3Stage : ChainStage where
  batch := 1
  run := fun fitD pool => if fitD.length = pool.length then [0] else [1]

/-- First member of the C3 configuration: it always selects indices 0
and 1. -/
def c3First : Pool → List ℕ := fun _ => [0, 1]

/-- Three-row pool of the C3 configuration. -/
def c3X : Pool := [[0], [1], [2]]

/-- C3 counterexample: the source fits each subsequent chain member on
the full pool (`sampler.fit(X)`), not on the already-selected subset's
rows: on a member that distinguishes the two fit contexts, the chain's
output differs from the spec-prescribed one (`[1]` against `[0]`). -/
theorem chain_fit_subset_counterexample :
    chain_select_samples c3First [c3Stage] c3X ≠
      chain_select_samples_fitOnSubset c3First [c3Stage] c3X := by
  decide

/-- C3 (amended): each subsequent chain member is fit on the full
original pool (no label argument) before its selection is invoked on
the already-selected subset's feature rows, and the sub-indices it
returns (relative to that subset) are translated back to original-pool
indices by composing with the previous step's index array. -/
theorem chain_fit_full_pool (first : Pool → List ℕ)
    (rest : List ChainStage) (X : Pool) :
    chain_select_samples first rest X =
      chain_select_samples_fitOnFullPool first rest X := rfl

theorem composeIdx_length (selected new_selected : List ℕ) :
    (composeIdx selected new_selected).length = new_selected.length :=
  List.length_map _ _

theorem composeIdx_mem {selected new_selected : List ℕ}
    (hvalid : ∀ j ∈ new_selected, j < selected.length) :
    ∀ i ∈ composeIdx selected new_selected, i ∈ selected := by
  intro i hi
  rcases List.mem_map.mp hi with ⟨j, hj, rfl⟩
  have hjlt := hvalid j hj
  rw [List.getD_eq_getElem selected 0 hjlt]
  exact List.get_mem selected j hjlt

theorem composeIdx_nodup {selected new_selected : List ℕ}
    (hsel : selected.Nodup) (hnew : new_selected.Nodup)
    (hvalid : ∀ j ∈ new_selected, j < selected.length) :
    (composeIdx selected new_selected).Nodup := by
  refine List.Nodup.map_on ?_ hnew
  intro j₁ h₁ j₂ h₂ heq
  have hl₁ := hvalid j₁ h₁
  have hl₂ := hvalid j₂ h₂
  rw [List.getD_eq_getElem selected 0 hl₁,
    List.getD_eq_getElem selected 0 hl₂] at heq
  have : (⟨j₁, hl₁⟩ : Fin selected.length) = ⟨j₂, hl₂⟩ :=
    hsel.get_inj_iff.mp heq
  exact congrArg Fin.val this

theorem selectRows_length (X : Pool) (selected : List ℕ) :
    (selectRows X selected).length = selected.length :=
  List.length_map _ _

theorem foldl_min_mono (rest : List ChainStage) :
    ∀ {a b : ℕ}, a ≤ b →
      rest.foldl (fun m st => min m st.batch) a ≤
        rest.foldl (fun m st => min m st.batch) b := by
  induction rest with
  | nil => intro a b h; exact h
  | cons st tl ih =>
      intro a b h
      exact ih (min_le_min h (le_refl st.batch))

/-- Invariant of the chain's fold: starting from a duplicate-free
selection, every step keeps the result duplicate-free, inside the
starting selection, and no longer than the running minimum of the
stage batch sizes. -/
theorem chain_fold_props (X : Pool) (rest : List ChainStage) :
    ∀ selected : List ℕ, selected.Nodup →
      (∀ st ∈ rest, ∀ fitD pool,
        ((st.run fitD pool).length ≤ st.batch ∧ (st.run fitD pool).Nodup ∧
          ∀ j ∈ st.run fitD pool, j < pool.length)) →
      (rest.foldl (fun sel st =>
          composeIdx sel (st.run X (selectRows X sel))) selected).Nodup ∧
        (∀ i ∈ rest.foldl (fun sel st =>
            composeIdx sel (st.run X (selectRows X sel))) selected,
          i ∈ selected) ∧
        (rest.foldl (fun sel st =>
            composeIdx sel (st.run X (selectRows X sel))) selected).length ≤
          rest.foldl (fun m st => min m st.batch) selected.length := by
  induction rest with
  | nil =>
      intro selected hsel _
      exact ⟨hsel, fun i hi => hi, le_refl _⟩
  | cons st tl ih =>
      intro selected hsel hstages
      have hst := hstages st (List.mem_cons_self st tl) X
        (selectRows X selected)
      have hvalid : ∀ j ∈ st.run X (selectRows X selected),
          j < selected.length := by
        intro j hj
        have := hst.2.2 j hj
        rw [selectRows_length] at this
        exact this
      set new := st.run X (selectRows X selected) with hnew
      set sel' := composeIdx selected new with hsel'
      have hsel'_nodup : sel'.Nodup := composeIdx_nodup hsel hst.2.1 hvalid
      have hsel'_sub : ∀ i ∈ sel', i ∈ selected := composeIdx_mem hvalid
      have hsel'_len : sel'.length ≤ min selected.length st.batch := by
        rw [hsel', composeIdx_length]
        refine le_min ?_ hst.1
        have hsub : new ⊆ List.range selected.length := by
          intro j hj
          exact List.mem_range.mpr (hvalid j hj)
        have := (List.subperm_of_subset hst.2.1 hsub).length_le
        simpa using this
      have htl : ∀ st' ∈ tl, ∀ fitD pool,
          ((st'.run fitD pool).length ≤ st'.batch ∧
            (st'.run fitD pool).Nodup ∧
            ∀ j ∈ st'.run fitD pool, j < pool.length) :=
        fun st' hst' => hstages st' (List.mem_cons_of_mem st hst')
      rcases ih sel' hsel'_nodup htl with ⟨hN, hS, hL⟩
      simp only [List.foldl_cons]
      refine ⟨hN, fun i hi => hsel'_sub i (hS i hi), ?_⟩
      exact le_trans hL (foldl_min_mono tl hsel'_len)

/-- A `top`-strategy member of a chain (its `predict` modelled as its
score-based selection) always returns at most `batch_size` distinct
valid indices into whatever pool it receives, regardless of its fit
data. -/
theorem scoredStage_top_props (s : ScoredQuerySampler)
    (hb : 0 < s.batch_size) (hs : s.strategy = "top")
    (hhook : ∀ P : Pool, (s.score_samples P).length = P.length) :
    ∀ fitD pool : Pool,
      (((scoredStage s).run fitD pool).length ≤ s.batch_size ∧
        ((scoredStage s).run fitD pool).Nodup ∧
        ∀ j ∈ (scoredStage s).run fitD pool, j < pool.length) := by
  intro fitD pool
  by_cases hdeg : pool.length < s.batch_size
  · have : (scoredStage s).run fitD pool = List.range pool.length := by
      show (match (select_samples s pool).result with
        | Except.ok idx => idx
        | Except.error _ => []) = List.range pool.length
      rw [select_samples_degenerate s pool hdeg]
    rw [this]
    refine ⟨?_, List.nodup_range _, ?_⟩
    · rw [List.length_range]
      exact le_of_lt hdeg
    · intro j hj
      exact List.mem_range.mp hj
  · have : (scoredStage s).run fitD pool =
        lastSlice s.batch_size (argsort (s.score_samples pool)) := by
      show (match (select_samples s pool).result with
        | Except.ok idx => idx
        | Except.error _ => []) =
          lastSlice s.batch_size (argsort (s.score_samples pool))
      rw [select_samples_top_eq s pool hdeg hs]
    rw [this]
    have hp := @topSelection_props (s.score_samples pool) s.batch_size hb
      (by rw [hhook pool]; exact not_lt.mp hdeg)
    rw [hhook pool] at hp
    exact ⟨le_of_eq hp.1, hp.2⟩

/-- C5: whenever every member of a chain returns at most its own batch
size of pairwise-distinct indices valid for its input pool, the chain's
selection is bounded by the minimum batch size along the chain
(`b0` bounding the first member), stays duplicate-free, is a subset of
the first member's selection, and consists of valid original-pool
indices. -/
theorem chain_select_monotone (first : Pool → List ℕ)
    (rest : List ChainStage) (X : Pool) (b0 : ℕ)
    (hfirst : (first X).length ≤ b0 ∧ (first X).Nodup ∧
      ∀ i ∈ first X, i < X.length)
    (hstages : ∀ st ∈ rest, ∀ fitD pool : Pool,
      ((st.run fitD pool).length ≤ st.batch ∧ (st.run fitD pool).Nodup ∧
        ∀ j ∈ st.run fitD pool, j < pool.length)) :
    (chain_select_samples first rest X).length ≤
        rest.foldl (fun m st => min m st.batch) b0 ∧
      (chain_select_samples first rest X).Nodup ∧
      (∀ i ∈ chain_select_samples first rest X, i ∈ first X) ∧
      ∀ i ∈ chain_select_samples first rest X, i < X.length := by
  rcases hfirst with ⟨hlen, hnodup, hvalid⟩
  rcases chain_fold_props X rest (first X) hnodup hstages with ⟨hN, hS, hL⟩
  exact ⟨le_trans hL (foldl_min_mono rest hlen), hN, hS,
    fun i hi => hvalid i (hS i hi)⟩

/-- First member of the concrete C5 chain: a `top` sampler with batch
size 2 scoring each row by its first feature. -/
def c5FirstSampler : ScoredQuerySampler where
  batch_size := 2
  strategy := "top"
  random_state := firstDraw
  score_samples := fun rows => rows.map (fun r => r.getD 0 0)

/-- Second member of the concrete C5 chain: the same `top` sampler with
batch size 1. -/
def c5SecondSampler : ScoredQuerySampler :=
  { c5FirstSampler with batch_size := 1 }

/-- The first member's selection as a plain pool-to-indices function. -/
def c5First : Pool → List ℕ := (scoredStage c5FirstSampler).run []

/-- Three-row pool for the concrete C5 chain. -/
def c5X : Pool := [[1], [3], [2]]

/-- Witness for C5: chaining `top` batch 2 then `top` batch 1 on a
three-row pool yields exactly one index, contained in the first
member's two-index selection. -/
theorem chain_select_monotone_witness :
    ((c5First c5X).length ≤ 2 ∧ (c5First c5X).Nodup ∧
      ∀ i ∈ c5First c5X, i < c5X.length) ∧
    (∀ st ∈ [scoredStage c5SecondSampler], ∀ fitD pool : Pool,
      ((st.run fitD pool).length ≤ st.batch ∧ (st.run fitD pool).Nodup ∧
        ∀ j ∈ st.run fitD pool, j < pool.length)) ∧
    (chain_select_samples c5First [scoredStage c5SecondSampler] c5X =
      [1] ∧ c5First c5X = [2, 1]) ∧
    ((chain_select_samples c5First [scoredStage c5SecondSampler]
          c5X).length ≤
        ([scoredStage c5SecondSampler]).foldl
          (fun m st => min m st.batch) 2 ∧
      (chain_select_samples c5First [scoredStage c5SecondSampler]
        c5X).Nodup ∧
      (∀ i ∈ chain_select_samples c5First [scoredStage c5SecondSampler]
        c5X, i ∈ c5First c5X) ∧
      ∀ i ∈ chain_select_samples c5First [scoredStage c5SecondSampler]
        c5X, i < c5X.length) := by
  have hstages : ∀ st ∈ [scoredStage c5SecondSampler], ∀ fitD pool : Pool,
      ((st.run fitD pool).length ≤ st.batch ∧ (st.run fitD pool).Nodup ∧
        ∀ j ∈ st.run fitD pool, j < pool.length) := by
    intro st hst fitD pool
    have hst' : st = scoredStage c5SecondSampler := by simpa using hst
    subst hst'
    exact scoredStage_top_props c5SecondSampler (by decide) rfl
      (fun P => List.length_map P _) fitD pool
  have hfirst : (c5First c5X).length ≤ 2 ∧ (c5First c5X).Nodup ∧
      ∀ i ∈ c5First c5X, i < c5X.length := by decide
  exact ⟨hfirst, hstages, ⟨by rfl, by rfl⟩,
    chain_select_monotone c5First [scoredStage c5SecondSampler] c5X 2
      hfirst hstages⟩

end Cardinal
